import Mathlib

/-!
A verification development for cgrep, a structure-aware grep for C sources.

The embedding below is a direct translation of `cgrep.c`:

* `Fstate` / `Wstate` mirror the C enums `fstate` and `wstate`;
* `gota` mirrors the word-processing routine `gota()` (chain accumulator and
  suffix matcher), with `checkLoop` as its suffix-testing `for` loop;
* `startCase`, `tokenEnd`, `lexSwitch`, `lineEnd`, `runStep` mirror the body of
  the character loop of `lex()`;
* `lex` runs the loop over a whole input, `lexGoFuel` is the same loop with an
  explicit iteration budget, used to state termination;
* `processAll` mirrors the file loop of `main()` combined with the
  open-or-skip behaviour at the top of `lex()`.

The compiled regular expression is an external collaborator (the `regexp.h`
package is not part of this source); it is embedded as an arbitrary full-match
predicate `pat : List Char → Bool` in the configuration.  `litPat` instantiates
it for pattern strings without egrep metacharacters: `main` wraps the pattern
in `^( )$`, so for such patterns the compiled predicate holds exactly on the
pattern string itself.

The state carries one ghost field, `tested`, which records the argument of
every `regexec` call in order; it feeds no transition and only makes the
sequence of suffix tests observable in theorems.
-/

namespace Cgrep

/-- ASCII letter test, mirroring `isalpha` in the C locale. -/
def isAlphaCh (c : Char) : Bool :=
  ('a' ≤ c && c ≤ 'z') || ('A' ≤ c && c ≤ 'Z')

/-- ASCII digit test, mirroring `isdigit` in the C locale. -/
def isDigitCh (c : Char) : Bool :=
  '0' ≤ c && c ≤ '9'

/-- The token-continuation test of `lex`: `isalnum(c) || c == '_'`. -/
def isAlnumUnd (c : Char) : Bool :=
  isAlphaCh c || isDigitCh c || c == '_'

/-- ASCII whitespace test, mirroring `isspace` in the C locale. -/
def isSpaceCh (c : Char) : Bool :=
  c == ' ' || c == '\t' || c == '\n' || c == '\x0b' || c == '\x0c' || c == '\r'

/-- Lexical processing state, mirroring `enum fstate` of cgrep.c. -/
inductive Fstate
  | start
  | slash
  | comment
  | star
  | bsl
  | dquote
  | squote
  | token
  | minus
deriving DecidableEq, Repr

/-- Word processing state, mirroring `enum wstate` of cgrep.c. -/
inductive Wstate
  | word
  | dot
  | other
deriving DecidableEq, Repr

/-- The events `lex` hands to `gota`: a completed identifier, a `.` or `->`
separator, or anything else. -/
inductive Wevent
  | word (w : List Char)
  | dot (s : List Char)
  | other
deriving DecidableEq, Repr

/-- Run configuration: the command-line switches, the compiled pattern
predicate, the `-r` replacement text and the current file name. -/
structure Cfg where
  lswitch : Bool
  aswitch : Bool
  nswitch : Bool
  sswitch : Bool
  cswitch : Bool
  rswitch : Bool
  pat : List Char → Bool
  newstr : List Char
  filen : Option String

/-- The per-pass state of cgrep: the lexer state (`state`, `pstate` of `lex`),
the word machine state and chain storage (statics of `gota`: `state`, `buff`,
`tokens`), the current line buffer with the token-start index `wIdx`
(pointer `w` of `lex`, kept as an index), the line counter and match flag, and
the observable outputs (the replace-mode output stream, `printx` reports,
`emacsLine` records, `-l` file listings).  `tested` is a ghost trace of all
`regexec` arguments. -/
structure St where
  fstate : Fstate
  pstate : Fstate
  wstate : Wstate
  buff : List Char
  tokens : List (Nat × Nat)
  marked : Bool
  lineno : Nat
  line : List Char
  wIdx : Nat
  changed : Bool
  outStream : List Char
  reports : List (Nat × List Char)
  emacs : List (Nat × List Char)
  filesHit : List (Option String)
  tested : List (List Char)
deriving Repr

/-- The suffix-testing `for` loop in `gota`: test `buff + tokens[i].start` for
each recorded token, recording emacs lines for every hit under `-A`, otherwise
setting the match flag at the first hit and stopping. -/
def checkLoop (cfg : Cfg) (buff : List Char) : List (Nat × Nat) → St → St
  | [], st => st
  | (s, l) :: rest, st =>
    let suf := buff.drop s
    let st := { st with tested := st.tested ++ [suf] }
    if cfg.pat suf then
      if cfg.aswitch then
        checkLoop cfg buff rest { st with emacs := st.emacs ++ [(l, suf)] }
      else { st with marked := true }
    else checkLoop cfg buff rest st

/-- The word machine `gota()` of cgrep.c.  In `-s`/`-c` mode it is inert; in
`-r` mode it only sets the match flag from the current single word; otherwise
it accumulates the dotted/arrow chain in `buff` with one `tokens` entry per
component and re-tests every recorded suffix after each completed word. -/
def gota (cfg : Cfg) (st : St) (ev : Wevent) : St :=
  if cfg.sswitch || cfg.cswitch then st
  else if cfg.rswitch then
    match ev with
    | .word w => { st with marked := cfg.pat w, tested := st.tested ++ [w] }
    | _ => { st with marked := false }
  else
    match ev with
    | .word w =>
      let st :=
        match st.wstate with
        | .other | .word =>
          { st with tokens := [(0, st.lineno)], buff := w }
        | .dot =>
          { st with tokens := st.tokens ++ [(st.buff.length, st.lineno)],
                    buff := st.buff ++ w }
      let st := checkLoop cfg st.buff st.tokens st
      { st with wstate := .word }
    | .dot s =>
      if st.wstate = .word then
        { st with buff := st.buff ++ s, wstate := .dot }
      else { st with wstate := .other }
    | .other => { st with wstate := .other }

/-- `printx()` of cgrep.c: under `-A` record an emacs line at the current line
number, otherwise emit a report tagged with the current line number. -/
def printx (cfg : Cfg) (st : St) (s : List Char) : St :=
  if cfg.aswitch then { st with emacs := st.emacs ++ [(st.lineno, s)] }
  else { st with reports := st.reports ++ [(st.lineno, s)] }

/-- The `case start` arm of the character switch in `lex()` (also the target of
the `isstart` label).  `none` stands for `EOF`. -/
def startCase (cfg : Cfg) (st : St) (c : Option Char) : St :=
  if c = some '.' then gota cfg st (.dot ['.'])
  else if c = some '-' then { st with fstate := .minus }
  else if c = some '/' then { st with fstate := .slash }
  else if c = some '\\' then { st with pstate := .start, fstate := .bsl }
  else if c = some '"' then { st with wIdx := st.line.length, fstate := .dquote }
  else if c = some '\x27' then { st with fstate := .squote }
  else
    match c with
    | some ch =>
      if isAlphaCh ch then { st with wIdx := st.line.length, fstate := .token }
      else if isSpaceCh ch then st
      else gota cfg st .other
    | none => gota cfg st .other

/-- Completion of an identifier token in `lex()`: hand the word to `gota`, in
replace mode rewrite the just-buffered token bytes with the replacement text
when matched, then reprocess the current character under the start state. -/
def tokenEnd (cfg : Cfg) (st : St) (c : Option Char) : St :=
  let w := st.line.drop st.wIdx
  let st := gota cfg st (.word w)
  let st :=
    if cfg.rswitch && st.marked then
      { st with line := st.line.take st.wIdx ++ cfg.newstr, changed := true }
    else st
  startCase cfg { st with fstate := .start } c

/-- The full `switch (state)` of the character loop in `lex()`. -/
def lexSwitch (cfg : Cfg) (st : St) (c : Option Char) : St :=
  match st.fstate with
  | .minus =>
    if c = some '>' then
      let st := gota cfg st (.dot ['-', '>'])
      { st with fstate := .start }
    else startCase cfg { st with fstate := .start } c
  | .token =>
    match c with
    | some ch =>
      if isAlnumUnd ch then st
      else tokenEnd cfg st c
    | none => tokenEnd cfg st c
  | .start => startCase cfg st c
  | .slash =>
    if c = some '*' then { st with wIdx := st.line.length + 1, fstate := .comment }
    else startCase cfg { st with fstate := .start } c
  | .star =>
    if c = some '/' then
      let st :=
        if cfg.cswitch then printx cfg st ((st.line.drop st.wIdx).dropLast)
        else st
      { st with fstate := .start }
    else if c = some '*' then { st with fstate := .star }
    else { st with fstate := .comment }
  | .comment =>
    if c = some '*' then { st with fstate := .star } else st
  | .bsl => { st with fstate := st.pstate }
  | .dquote =>
    if c = some '"' || c = some '\n' then
      let st := { st with fstate := .start }
      if cfg.sswitch then printx cfg st (st.line.drop (st.wIdx + 1))
      else gota cfg st .other
    else if c = some '\\' then { st with pstate := .dquote, fstate := .bsl }
    else st
  | .squote =>
    if c = some '\x27' || c = some '\n' then
      let st := gota cfg st .other
      { st with fstate := .start }
    else if c = some '\\' then { st with pstate := .squote, fstate := .bsl }
    else st

/-- Advance of line bookkeeping shared by every end-of-line path: bump the line
counter, clear the line buffer, and stop the loop at `EOF`. -/
def finishLine (st : St) (c : Option Char) : St × Bool :=
  ({ st with lineno := st.lineno + 1, line := [] }, c = none)

/-- The end-of-line block at the bottom of the character loop of `lex()`,
reached when the character is a newline or `EOF`.  The returned Boolean is the
`break` out of the loop. -/
def lineEnd (cfg : Cfg) (st : St) (c : Option Char) : St × Bool :=
  if cfg.rswitch && c = none && st.line = [] then (st, true)
  else
    let st :=
      if cfg.rswitch then
        let ln := if c = some '\n' then st.line ++ ['\n'] else st.line
        { st with outStream := st.outStream ++ ln, line := ln, marked := false }
      else st
    let st :=
      if cfg.cswitch && st.fstate = .comment then
        let st := printx cfg st (st.line.drop st.wIdx)
        { st with wIdx := 0 }
      else st
    if st.marked then
      let st := { st with marked := false }
      if cfg.lswitch then
        ({ st with filesHit := st.filesHit ++ [cfg.filen] }, true)
      else finishLine (printx cfg st st.line) c
    else finishLine st c

/-- One iteration of the character loop of `lex()`: the state switch, then
either the buffering of an ordinary character or the end-of-line block. -/
def runStep (cfg : Cfg) (st : St) (c : Option Char) : St × Bool :=
  let st := lexSwitch cfg st c
  match c with
  | some ch =>
    if ch = '\n' then lineEnd cfg st c
    else ({ st with line := st.line ++ [ch] }, false)
  | none => lineEnd cfg st c

/-- The character loop of `lex()` over the remaining input, one `fgetc` per
iteration, with a final `EOF` iteration. -/
def lexGo (cfg : Cfg) (st : St) : List Char → St
  | [] => (runStep cfg st none).1
  | ch :: cs =>
    let r := runStep cfg st (some ch)
    if r.2 then r.1 else lexGo cfg r.1 cs

/-- The initial per-pass state of `lex()`: line 1, empty buffers, and the
`gota(other, NULL)` initialization of the word machine. -/
def initSt : St :=
  { fstate := .start, pstate := .start, wstate := .other, buff := [],
    tokens := [], marked := false, lineno := 1, line := [], wIdx := 0,
    changed := false, outStream := [], reports := [], emacs := [],
    filesHit := [], tested := [] }

/-- The state at the top of the character loop of `lex()`. -/
def lexInit (cfg : Cfg) : St := gota cfg initSt .other

/-- `lex()` on one successfully opened source: run the character loop over the
whole input. -/
def lex (cfg : Cfg) (input : List Char) : St :=
  lexGo cfg (lexInit cfg) input

/-- The character loop of `lex()` with an explicit iteration budget: `none`
means the budget was exhausted before the loop broke.  Used to state that the
loop terminates within `input.length + 1` iterations. -/
def lexGoFuel (cfg : Cfg) : Nat → St → List Char → Option St
  | 0, _, _ => none
  | _ + 1, st, [] => some (runStep cfg st none).1
  | f + 1, st, ch :: cs =>
    let r := runStep cfg st (some ch)
    if r.2 then some r.1 else lexGoFuel cfg f r.1 cs

/-- One source in the file loop of `main()`: its name, and its contents, or
`none` when `fopen` fails. -/
def lexFile (cfg : Cfg) (name : String) (contents : Option (List Char)) :
    Option St × List String :=
  match contents with
  | none => (none, ["cgrep: warning cannot open " ++ name])
  | some cs => (some (lex { cfg with filen := some name } cs), [])

/-- The file loop of `main()`: process each named source in order with `lex`,
skipping (with the warning diagnostic of `lex`) exactly the sources that
cannot be opened. -/
def processAll (cfg : Cfg) :
    List (String × Option (List Char)) → List (Option St) × List String
  | [] => ([], [])
  | (n, c) :: rest =>
    let r := lexFile cfg n c
    let rr := processAll cfg rest
    (r.1 :: rr.1, r.2 ++ rr.2)

/-- The configuration with no switches set. -/
def plainCfg (p : List Char → Bool) : Cfg :=
  { lswitch := false, aswitch := false, nswitch := false, sswitch := false,
    cswitch := false, rswitch := false, pat := p, newstr := [], filen := none }

/-- The `-A` configuration. -/
def aCfg (p : List Char → Bool) : Cfg := { plainCfg p with aswitch := true }

/-- The `-c` configuration (no pattern is compiled in this mode). -/
def cCfg : Cfg := { plainCfg (fun _ => false) with cswitch := true }

/-- The `-r` configuration with a replacement text. -/
def rCfg (p : List Char → Bool) (ns : List Char) : Cfg :=
  { plainCfg p with rswitch := true, newstr := ns }

/-- The compiled full-match predicate for a pattern string without egrep
metacharacters: `main` wraps the pattern in `^( )$`, so the predicate of the
external regexp collaborator holds exactly on the pattern string itself. -/
def litPat (s : String) : List Char → Bool := fun w => w == s.toList

/-- A blank character for the padding in whole-identifier statements. -/
def isBlankCh (c : Char) : Bool := c == ' ' || c == '\n'

/-- One piece of a replace-mode decomposition of the input: either a byte
copied through verbatim, or a matched identifier token that gets rewritten. -/
inductive Piece
  | keep (c : Char)
  | subst (w : List Char)
deriving Repr

/-- The input bytes a piece stands for. -/
def pieceIn : Piece → List Char
  | .keep c => [c]
  | .subst w => w

/-- The output bytes a piece produces under replacement text `ns`. -/
def pieceOut (ns : List Char) : Piece → List Char
  | .keep c => [c]
  | .subst _ => ns

/-- Rendering of a decomposition on the input side. -/
def rendIn (ps : List Piece) : List Char := (ps.map pieceIn).flatten

/-- Rendering of a decomposition on the output side. -/
def rendOut (ns : List Char) (ps : List Piece) : List Char :=
  (ps.map (pieceOut ns)).flatten

/-- The shape of a completed identifier token: a letter followed by letters,
digits and underscores. -/
def isIdentB (w : List Char) : Bool :=
  match w with
  | [] => false
  | c :: rest => isAlphaCh c && rest.all isAlnumUnd

/-- A piece is valid for pattern `p` when any substituted token is a complete
identifier that the pattern matches. -/
def validPiece (p : List Char → Bool) : Piece → Prop
  | .keep _ => True
  | .subst w => p w = true ∧ isIdentB w = true

/-- The default-mode configuration for pattern `tmp`. -/
def tmpCfg : Cfg := plainCfg (litPat "tmp")

/-- A quiescent state between tokens: the lexer sits in the start state, no
match is pending, and nothing has been reported. -/
def SafeSt (st : St) : Prop :=
  st.fstate = .start ∧ st.marked = false ∧ st.reports = [] ∧ st.emacs = []

/-- In the token state, the bytes of the line buffer from the token-start
index onwards are exactly the identifier read so far, and the decomposition
ends with those bytes as verbatim pieces. -/
def TokOk (st : St) (ps : List Piece) : Prop :=
  st.fstate = .token →
    isIdentB (st.line.drop st.wIdx) = true ∧
    ∃ ps₀, ps = ps₀ ++ (st.line.drop st.wIdx).map Piece.keep

/-- The replace-mode frame invariant: the input consumed so far decomposes
into valid pieces whose input rendering is the consumed input and whose
output rendering is the flushed output followed by the pending line buffer. -/
def RInv (p : List Char → Bool) (ns : List Char) (consumed : List Char)
    (st : St) (ps : List Piece) : Prop :=
  (∀ q ∈ ps, validPiece p q) ∧
  consumed = rendIn ps ∧
  st.outStream ++ st.line = rendOut ns ps ∧
  st.pstate ≠ .token ∧
  TokOk st ps

/-- Claim C1: after each completed identifier word the matcher tests every
recorded suffix of the accumulated chain, longest first, against the pattern
predicate.  On the chain `ptr->val`, pattern `val` and pattern `ptr->val`
each report a hit from that chain, while pattern `memb` reports none; the
ghost trace of `regexec` calls shows the suffixes tested longest first
(`ptr->val` then `val`), with the first-hit short-circuit of the plain
reporting mode. -/
theorem claim1_suffix_matching :
    (lex (plainCfg (litPat "val")) "ptr->val".toList).reports
      = [(1, "ptr->val".toList)] ∧
    (lex (plainCfg (litPat "ptr->val")) "ptr->val".toList).reports
      = [(1, "ptr->val".toList)] ∧
    (lex (plainCfg (litPat "memb")) "ptr->val".toList).reports = [] ∧
    (lex (plainCfg (litPat "memb")) "ptr->val".toList).emacs = [] ∧
    (lex (plainCfg (litPat "memb")) "ptr->val".toList).tested
      = ["ptr".toList, "ptr->val".toList, "val".toList] ∧
    (lex (plainCfg (litPat "val")) "ptr->val".toList).tested
      = ["ptr".toList, "ptr->val".toList, "val".toList] ∧
    (lex (plainCfg (litPat "ptr->val")) "ptr->val".toList).tested
      = ["ptr".toList, "ptr->val".toList] := by
  decide

/-- Claim C3, counterexample: in replace mode with pattern `foo` and
replacement `bar`, the input `foo.bar` is rewritten to `bar.bar` — the `foo`
component of the dotted chain IS rewritten, contradicting the claim that a
chain component is never rewritten. -/
theorem claim3_counterexample :
    (lex (rCfg (litPat "foo") "bar".toList) "foo.bar\n".toList).outStream
      = "bar.bar\n".toList := by
  decide

/-- Claim C3 as amended: in replace mode the pattern is matched against
individual identifier tokens only, never against accumulated chains, so a
chain pattern such as `ptr->val` never rewrites anything; but a matching
identifier token is rewritten even when it is a component of a dotted or
arrow chain: `foo.bar` with pattern `foo` and replacement `bar` becomes
`bar.bar`. -/
theorem claim3_amended :
    (lex (rCfg (litPat "foo") "bar".toList) "foo.bar\n".toList).outStream
      = "bar.bar\n".toList ∧
    (lex (rCfg (litPat "ptr->val") "bar".toList) "ptr->val\n".toList).outStream
      = "ptr->val\n".toList ∧
    (lex (rCfg (litPat "ptr->val") "bar".toList) "ptr->val\n".toList).tested
      = ["ptr".toList, "val".toList] := by
  decide

/-- Claim C4: in comment-report mode, the input `/* hello */` causes the
comment body (the bytes between the delimiters, excluding the trailing `*/`)
to be reported exactly once, tagged with the line on which the comment
opened. -/
theorem claim4_comment_report :
    (lex cCfg "/* hello */\n".toList).reports = [(1, " hello ".toList)] := by
  decide

/-- Claim C6: a chain split across a line break (`ptr`, then after a comment
and newline, `->val`) is reported at the line of its last completed component
(line 2) by default, and at the line of its first component (line 1) under
the `-A` start-reporting flag. -/
theorem claim6_multiline_chain :
    (lex (plainCfg (litPat "ptr->val")) "ptr /* c */\n->val\n".toList).reports
      = [(2, "->val".toList)] ∧
    (lex (aCfg (litPat "ptr->val")) "ptr /* c */\n->val\n".toList).emacs
      = [(1, "ptr->val".toList)] ∧
    (lex (aCfg (litPat "ptr->val")) "ptr /* c */\n->val\n".toList).reports
      = [] := by
  decide

/-- Claim C9: an identifier token is started only by a letter.  A leading
underscore or digit is a non-identifier character, so `_foo` and `9foo` make
the lexer emit the word `foo` (which pattern `foo` matches, and pattern
`_foo` never sees a matching token), while underscores and digits inside
`a_9b` extend the identifier into a single word. -/
theorem claim9_ident_start_letter :
    (lex (plainCfg (litPat "foo")) "_foo".toList).tested = ["foo".toList] ∧
    (lex (plainCfg (litPat "foo")) "_foo".toList).reports
      = [(1, "_foo".toList)] ∧
    (lex (plainCfg (litPat "_foo")) "_foo".toList).reports = [] ∧
    (lex (plainCfg (litPat "_foo")) "_foo".toList).emacs = [] ∧
    (lex (plainCfg (litPat "foo")) "9foo".toList).tested = ["foo".toList] ∧
    (lex (plainCfg (litPat "a_9b")) "a_9b".toList).tested = ["a_9b".toList] ∧
    (lex (plainCfg (litPat "a_9b")) "a_9b".toList).reports
      = [(1, "a_9b".toList)] := by
  decide

/-- The character loop halts within `cs.length + 1` iterations from any state:
one iteration per input character plus the final `EOF` iteration, matching the
one-`fgetc`-per-iteration structure of `lex()`. -/
theorem lexGoFuel_sufficient (cfg : Cfg) :
    ∀ (cs : List Char) (st : St),
      lexGoFuel cfg (cs.length + 1) st cs = some (lexGo cfg st cs) := by
  intro cs
  induction cs with
  | nil => intro st; rfl
  | cons ch cs ih =>
    intro st
    cases h : (runStep cfg st (some ch)).2 <;>
      simp [lexGoFuel, lexGo, h, ih]

/-- Claim C7: for every finite input and every configuration, the per-source
pass terminates: the character loop, run with an iteration budget of
`input.length + 1`, breaks out of the loop before exhausting the budget and
returns the final state of the pass — in particular for inputs that end
inside an unterminated comment. -/
theorem claim7_termination (cfg : Cfg) (input : List Char) :
    lexGoFuel cfg (input.length + 1) (lexInit cfg) input
      = some (lex cfg input) :=
  lexGoFuel_sufficient cfg input (lexInit cfg)

/-- Claim C8: when several sources are supplied, each is processed in order;
a source that cannot be opened contributes no pass but exactly one warning
diagnostic, and every other source — including every source after a failed
one — is still processed to completion by `lex`. -/
theorem claim8_per_source (cfg : Cfg)
    (srcs : List (String × Option (List Char))) :
    (processAll cfg srcs).1
      = srcs.map (fun s =>
          match s.2 with
          | none => none
          | some cs => some (lex { cfg with filen := some s.1 } cs)) ∧
    (processAll cfg srcs).2
      = (srcs.filter (fun s => s.2.isNone)).map
          (fun s => "cgrep: warning cannot open " ++ s.1) := by
  induction srcs with
  | nil => exact ⟨rfl, rfl⟩
  | cons s rest ih =>
    obtain ⟨n, c⟩ := s
    cases c <;>
      simp [processAll, lexFile, ih.1, ih.2, List.filter_cons]

/-- The end-of-line block never changes the word-machine state. -/
theorem lineEnd_wstate (cfg : Cfg) (st : St) (c : Option Char) :
    ((lineEnd cfg st c).1).wstate = st.wstate := by
  unfold lineEnd finishLine printx
  cases hr : cfg.rswitch <;> cases ha : cfg.aswitch <;>
    cases hc : cfg.cswitch <;> cases hl : cfg.lswitch <;>
      simp [hr, ha, hc, hl] <;> split_ifs <;> simp

/-- Claim C10: outside the strings-only and comments-only modes (and outside
replace mode, where no chain is accumulated), the end of a double-quote
string — whether closed by its quote or cut off by a newline — and the end of
a single-quote character literal — whether closed by its quote or cut off by
a newline — drive the word machine through a chain-breaking `Other` event, so
the accumulated chain state is `other` afterwards and a chain can never span
a string or character literal. -/
theorem claim10_literal_break (cfg : Cfg) (st : St) (c : Char)
    (hs : cfg.sswitch = false) (hc : cfg.cswitch = false)
    (hr : cfg.rswitch = false)
    (h : (st.fstate = .dquote ∧ (c = '"' ∨ c = '\n')) ∨
         (st.fstate = .squote ∧ (c = '\x27' ∨ c = '\n'))) :
    ((runStep cfg st (some c)).1).wstate = Wstate.other := by
  rcases h with ⟨hf, hcc⟩ | ⟨hf, hcc⟩ <;> rcases hcc with rfl | rfl <;>
    simp [runStep, lexSwitch, hf, gota, hs, hc, hr, lineEnd_wstate]

/-- Witness for claim C10 at a concrete state and character. -/
theorem claim10_witness :
    ((runStep (plainCfg (litPat "x"))
        { initSt with fstate := Fstate.dquote } (some '\n')).1).wstate
      = Wstate.other :=
  claim10_literal_break (plainCfg (litPat "x"))
    { initSt with fstate := Fstate.dquote } '\n' rfl rfl rfl
    (Or.inl ⟨rfl, Or.inr rfl⟩)

/-- Processing a blank character from a quiescent state does not break the
loop, keeps the pass quiescent, and leaves the word machine alone. -/
theorem blank_step (st : St) (c : Char) (hb : isBlankCh c = true)
    (h : SafeSt st) :
    (runStep tmpCfg st (some c)).2 = false ∧
    SafeSt (runStep tmpCfg st (some c)).1 ∧
    ((runStep tmpCfg st (some c)).1).wstate = st.wstate := by
  obtain ⟨h1, h2, h3, h4⟩ := h
  have hc : c = ' ' ∨ c = '\n' := by
    simpa [isBlankCh] using hb
  rcases hc with rfl | rfl <;>
    simp [runStep, lexSwitch, h1, startCase, isAlphaCh, isSpaceCh, tmpCfg,
      plainCfg, lineEnd, finishLine, gota, SafeSt, h2, h3, h4]

/-- Running the pass over a blank tail from a quiescent state reports
nothing. -/
theorem blank_tail (post : List Char) :
    ∀ st : St, SafeSt st → (∀ c ∈ post, isBlankCh c = true) →
      (lexGo tmpCfg st post).reports = [] ∧
      (lexGo tmpCfg st post).emacs = [] := by
  induction post with
  | nil =>
    intro st h _
    obtain ⟨h1, h2, h3, h4⟩ := h
    simp [lexGo, runStep, lexSwitch, h1, startCase, gota, tmpCfg, plainCfg,
      lineEnd, finishLine, h2, h3, h4]
  | cons b post ih =>
    intro st h hp
    have hb : isBlankCh b = true := hp b (List.mem_cons_self b post)
    have hs := blank_step st b hb h
    rw [lexGo, if_neg (by simp [hs.1])]
    exact ih _ hs.2.1 fun c hc => hp c (List.mem_cons_of_mem b hc)

/-- Unfolding of the character loop when the current step does not break. -/
theorem lexGo_cons_nobreak (cfg : Cfg) (st : St) (ch : Char) (cs : List Char)
    (h : (runStep cfg st (some ch)).2 = false) :
    lexGo cfg st (ch :: cs) = lexGo cfg (runStep cfg st (some ch)).1 cs := by
  simp [lexGo, h]

/-- One step on a letter from the start state: remember the token start and
enter the token state, buffering the character. -/
theorem run_step_start_alpha (cfg : Cfg) (st : St) (ch : Char)
    (hf : st.fstate = Fstate.start) (ha : isAlphaCh ch = true) :
    runStep cfg st (some ch)
      = ({ st with
            wIdx := st.line.length, fstate := Fstate.token,
            line := st.line ++ [ch] }, false) := by
  have h1 : ch ≠ '.' := fun e => by subst e; simp [isAlphaCh] at ha
  have h2 : ch ≠ '-' := fun e => by subst e; simp [isAlphaCh] at ha
  have h3 : ch ≠ '/' := fun e => by subst e; simp [isAlphaCh] at ha
  have h4 : ch ≠ '\\' := fun e => by subst e; simp [isAlphaCh] at ha
  have h5 : ch ≠ '"' := fun e => by subst e; simp [isAlphaCh] at ha
  have h6 : ch ≠ '\x27' := fun e => by subst e; simp [isAlphaCh] at ha
  have h7 : ch ≠ '\n' := fun e => by subst e; simp [isAlphaCh] at ha
  simp [runStep, lexSwitch, hf, startCase, h1, h2, h3, h4, h5, h6, h7, ha]

/-- One step on an identifier-continuation character in the token state:
the character is buffered and the token grows. -/
theorem run_step_token (cfg : Cfg) (st : St) (ch : Char)
    (hf : st.fstate = Fstate.token) (hal : isAlnumUnd ch = true) :
    runStep cfg st (some ch) = ({ st with line := st.line ++ [ch] }, false) := by
  have h7 : ch ≠ '\n' := fun e => by
    subst e; simp [isAlnumUnd, isAlphaCh, isDigitCh] at hal
  simp [runStep, lexSwitch, hf, hal, h7]

/-- Running the loop over a block of identifier-continuation characters from
the token state just appends them to the line buffer. -/
theorem token_run (cfg : Cfg) (cs : List Char) :
    ∀ (rest : List Char) (st : St), st.fstate = Fstate.token →
      cs.all isAlnumUnd = true →
      lexGo cfg st (cs ++ rest)
        = lexGo cfg { st with line := st.line ++ cs } rest := by
  induction cs with
  | nil => intro rest st _ _; simp
  | cons c cs ih =>
    intro rest st hf hall
    simp only [List.all_cons, Bool.and_eq_true] at hall
    have hstep := run_step_token cfg st c hf hall.1
    rw [List.cons_append, lexGo_cons_nobreak cfg st c (cs ++ rest)
      (by rw [hstep])]
    rw [hstep]
    rw [ih rest _ (by exact hf) hall.2]
    simp [List.append_assoc]

/-- Ending the word `tmpname` on a blank character under pattern `tmp`: the
step does not break the loop and lands in a quiescent state. -/
theorem tmp_word_end (st : St) (b : Char) (hb : isBlankCh b = true)
    (h1 : st.fstate = Fstate.token) (h2 : st.marked = false)
    (h3 : st.reports = []) (h4 : st.emacs = [])
    (hw : st.wstate = Wstate.other)
    (hpat : ¬ st.line.drop st.wIdx = ['t', 'm', 'p']) :
    (runStep tmpCfg st (some b)).2 = false ∧
    SafeSt (runStep tmpCfg st (some b)).1 := by
  have hbc : b = ' ' ∨ b = '\n' := by simpa [isBlankCh] using hb
  rcases hbc with rfl | rfl <;>
    simp [runStep, lexSwitch, h1, tokenEnd, startCase, gota, checkLoop,
      tmpCfg, plainCfg, lineEnd, finishLine, isSpaceCh, isAlphaCh, isAlnumUnd,
      isDigitCh, litPat, hpat, h2, h3, h4, hw, SafeSt]

/-- Ending the word `tmpname` at end of input under pattern `tmp`: the final
`EOF` iteration reports nothing. -/
theorem tmp_word_end_eof (st : St)
    (h1 : st.fstate = Fstate.token) (h2 : st.marked = false)
    (h3 : st.reports = []) (h4 : st.emacs = [])
    (hw : st.wstate = Wstate.other)
    (hpat : ¬ st.line.drop st.wIdx = ['t', 'm', 'p']) :
    ((runStep tmpCfg st none).1).reports = [] ∧
    ((runStep tmpCfg st none).1).emacs = [] := by
  simp [runStep, lexSwitch, h1, tokenEnd, startCase, gota, checkLoop,
    tmpCfg, plainCfg, lineEnd, finishLine, litPat, hpat, h2, h3, h4, hw]

/-- A blank character after a completed non-matching token, then a blank
tail: nothing is ever reported. -/
theorem tmp_tail_phase (st : St) (b : Char) (post : List Char)
    (hb : isBlankCh b = true) (hps : ∀ c ∈ post, isBlankCh c = true)
    (h1 : st.fstate = Fstate.token) (h2 : st.marked = false)
    (h3 : st.reports = []) (h4 : st.emacs = [])
    (hw : st.wstate = Wstate.other)
    (hpat : ¬ st.line.drop st.wIdx = ['t', 'm', 'p']) :
    (lexGo tmpCfg st (b :: post)).reports = [] ∧
    (lexGo tmpCfg st (b :: post)).emacs = [] := by
  have hend := tmp_word_end st b hb h1 h2 h3 h4 hw hpat
  rw [lexGo_cons_nobreak tmpCfg st b post hend.1]
  exact blank_tail post _ hend.2 hps

/-- Reading the identifier `tmpname` from a quiescent state with an empty
chain, followed by any blank tail, reports nothing under pattern `tmp`. -/
theorem tmpname_phase (st : St) (post : List Char) (h : SafeSt st)
    (hw : st.wstate = Wstate.other)
    (hp : ∀ c ∈ post, isBlankCh c = true) :
    (lexGo tmpCfg st ("tmpname".toList ++ post)).reports = [] ∧
    (lexGo tmpCfg st ("tmpname".toList ++ post)).emacs = [] := by
  obtain ⟨h1, h2, h3, h4⟩ := h
  have ht : "tmpname".toList ++ post
      = 't' :: (['m', 'p', 'n', 'a', 'm', 'e'] ++ post) := rfl
  rw [ht]
  have e1 := run_step_start_alpha tmpCfg st 't' h1 (by decide)
  rw [lexGo_cons_nobreak tmpCfg st 't' _ (by rw [e1]), e1]
  rw [token_run tmpCfg ['m', 'p', 'n', 'a', 'm', 'e'] post _ rfl (by decide)]
  rcases post with _ | ⟨b, post⟩
  · refine tmp_word_end_eof _ rfl h2 h3 h4 hw ?_
    simp [List.append_assoc, List.drop_left]
  · refine tmp_tail_phase _ b post (hp b (List.mem_cons_self b post))
      (fun c hc => hp c (List.mem_cons_of_mem b hc)) rfl h2 h3 h4 hw ?_
    simp [List.append_assoc, List.drop_left]

/-- Claim C2: pattern matching is whole-identifier only.  The pattern is an
anchored full-string predicate, so on any input consisting of the identifier
`tmpname` surrounded by arbitrary blank padding, pattern `tmp` reports no
hit: the predicate only ever sees the complete identifier `tmpname`, never
its prefix `tmp`. -/
theorem claim2_whole_identifier (pre post : List Char)
    (hpre : ∀ c ∈ pre, isBlankCh c = true)
    (hpost : ∀ c ∈ post, isBlankCh c = true) :
    (lex tmpCfg (pre ++ "tmpname".toList ++ post)).reports = [] ∧
    (lex tmpCfg (pre ++ "tmpname".toList ++ post)).emacs = [] := by
  have hsafe : SafeSt (lexInit tmpCfg) := ⟨rfl, rfl, rfl, rfl⟩
  have hwst : (lexInit tmpCfg).wstate = Wstate.other := rfl
  suffices hgen : ∀ (pr : List Char) (st : St), SafeSt st →
      st.wstate = Wstate.other → (∀ c ∈ pr, isBlankCh c = true) →
      (lexGo tmpCfg st (pr ++ ("tmpname".toList ++ post))).reports = [] ∧
      (lexGo tmpCfg st (pr ++ ("tmpname".toList ++ post))).emacs = [] by
    have h := hgen pre (lexInit tmpCfg) hsafe hwst hpre
    simpa [lex, List.append_assoc] using h
  intro pr
  induction pr with
  | nil =>
    intro st hs hw _
    simpa using tmpname_phase st post hs hw hpost
  | cons b pr ih =>
    intro st hs hw hp
    have hb : isBlankCh b = true := hp b (List.mem_cons_self b pr)
    have hstep := blank_step st b hb hs
    rw [List.cons_append, lexGo_cons_nobreak tmpCfg st b _ hstep.1]
    exact ih _ hstep.2.1 (hstep.2.2.trans hw)
      fun c hc => hp c (List.mem_cons_of_mem b hc)

/-- Witness for claim C2 with one space before and one newline after the
identifier. -/
theorem claim2_witness :
    (lex tmpCfg ([' '] ++ "tmpname".toList ++ ['\n'])).reports = [] ∧
    (lex tmpCfg ([' '] ++ "tmpname".toList ++ ['\n'])).emacs = [] :=
  claim2_whole_identifier [' '] ['\n'] (by decide) (by decide)

theorem rendIn_append (ps qs : List Piece) :
    rendIn (ps ++ qs) = rendIn ps ++ rendIn qs := by
  simp [rendIn]

theorem rendOut_append (ns : List Char) (ps qs : List Piece) :
    rendOut ns (ps ++ qs) = rendOut ns ps ++ rendOut ns qs := by
  simp [rendOut]

theorem rendIn_keeps (w : List Char) : rendIn (w.map Piece.keep) = w := by
  induction w with
  | nil => rfl
  | cons c w ih => simp [rendIn, pieceIn] at ih ⊢; exact ih

theorem rendOut_keeps (ns : List Char) (w : List Char) :
    rendOut ns (w.map Piece.keep) = w := by
  induction w with
  | nil => rfl
  | cons c w ih => simp [rendOut, pieceOut] at ih ⊢; exact ih

theorem gota_r_word (p : List Char → Bool) (ns : List Char) (st : St)
    (w : List Char) :
    gota (rCfg p ns) st (.word w)
      = { st with marked := p w, tested := st.tested ++ [w] } := by
  simp [gota, rCfg, plainCfg]

theorem gota_r_dot (p : List Char → Bool) (ns : List Char) (st : St)
    (s : List Char) :
    gota (rCfg p ns) st (.dot s) = { st with marked := false } := by
  simp [gota, rCfg, plainCfg]

theorem gota_r_other (p : List Char → Bool) (ns : List Char) (st : St) :
    gota (rCfg p ns) st .other = { st with marked := false } := by
  simp [gota, rCfg, plainCfg]

/-- In replace mode, reprocessing a character under the start state never
touches the line buffer or the output stream; it can enter the token state
only on a letter, in which case it records the token start. -/
theorem startCase_r (p : List Char → Bool) (ns : List Char) (st : St)
    (c : Option Char) (hf : st.fstate = Fstate.start) :
    (startCase (rCfg p ns) st c).line = st.line ∧
    (startCase (rCfg p ns) st c).outStream = st.outStream ∧
    ((startCase (rCfg p ns) st c).pstate = Fstate.token →
      st.pstate = Fstate.token) ∧
    ((startCase (rCfg p ns) st c).fstate = Fstate.token →
      (startCase (rCfg p ns) st c).wIdx = st.line.length ∧
      ∃ ch, c = some ch ∧ isAlphaCh ch = true) := by
  rcases c with _ | ch
  · simp [startCase, gota_r_other, hf]
  · unfold startCase
    split_ifs with h1 h2 h3 h4 h5 h6 <;>
      simp_all [gota_r_dot, gota_r_other, hf] <;>
      split_ifs with h7 h8 <;> simp_all

/-- In replace mode, the character switch from any non-token lexer state
never touches the line buffer or the output stream, never makes the
remembered backslash-return state the token state, and can enter the token
state only on a letter, recording the token start. -/
theorem lexSwitch_r_nontoken (p : List Char → Bool) (ns : List Char)
    (st : St) (c : Option Char) (hf : ¬ st.fstate = Fstate.token)
    (hp : ¬ st.pstate = Fstate.token) :
    (lexSwitch (rCfg p ns) st c).line = st.line ∧
    (lexSwitch (rCfg p ns) st c).outStream = st.outStream ∧
    ¬ (lexSwitch (rCfg p ns) st c).pstate = Fstate.token ∧
    ((lexSwitch (rCfg p ns) st c).fstate = Fstate.token →
      (lexSwitch (rCfg p ns) st c).wIdx = st.line.length ∧
      ∃ ch, c = some ch ∧ isAlphaCh ch = true) := by
  cases hfs : st.fstate with
  | token => exact absurd hfs hf
  | start =>
    have h := startCase_r p ns st c hfs
    simp only [lexSwitch, hfs]
    exact ⟨h.1, h.2.1, fun hx => absurd (h.2.2.1 hx) hp, h.2.2.2⟩
  | minus =>
    simp only [lexSwitch, hfs]
    split_ifs with h1
    · simp [gota_r_dot, hp]
    · have h := startCase_r p ns { st with fstate := Fstate.start } c rfl
      exact ⟨h.1, h.2.1, fun hx => absurd (h.2.2.1 hx) hp, h.2.2.2⟩
  | slash =>
    simp only [lexSwitch, hfs]
    split_ifs with h1
    · simp [hp]
    · have h := startCase_r p ns { st with fstate := Fstate.start } c rfl
      exact ⟨h.1, h.2.1, fun hx => absurd (h.2.2.1 hx) hp, h.2.2.2⟩
  | star =>
    simp only [lexSwitch, hfs]
    split_ifs with h1 h2 <;> simp [printx, rCfg, plainCfg, hp]
  | comment =>
    simp only [lexSwitch, hfs]
    split_ifs with h1 <;> simp [hp, hf]
  | bsl =>
    simp only [lexSwitch, hfs]
    simp [hp]
  | dquote =>
    simp only [lexSwitch, hfs]
    split_ifs with h1 h2 <;>
      simp [gota, printx, rCfg, plainCfg, hp, hfs]
  | squote =>
    simp only [lexSwitch, hfs]
    split_ifs with h1 h2 <;>
      simp [gota, rCfg, plainCfg, hp, hfs]

/-- Completing a matched token in replace mode rewrites the buffered token
bytes to the replacement text before reprocessing the current character. -/
theorem tokenEnd_r_match (p : List Char → Bool) (ns : List Char) (st : St)
    (c : Option Char) (hm : p (st.line.drop st.wIdx) = true) :
    tokenEnd (rCfg p ns) st c
      = startCase (rCfg p ns)
          { st with
            marked := true, tested := st.tested ++ [st.line.drop st.wIdx],
            line := st.line.take st.wIdx ++ ns, changed := true,
            fstate := Fstate.start } c := by
  simp [tokenEnd, gota, rCfg, plainCfg, hm]

/-- Completing an unmatched token in replace mode leaves the line buffer
alone. -/
theorem tokenEnd_r_nomatch (p : List Char → Bool) (ns : List Char) (st : St)
    (c : Option Char) (hm : p (st.line.drop st.wIdx) = false) :
    tokenEnd (rCfg p ns) st c
      = startCase (rCfg p ns)
          { st with
            marked := false, tested := st.tested ++ [st.line.drop st.wIdx],
            fstate := Fstate.start } c := by
  simp [tokenEnd, gota, rCfg, plainCfg, hm]

/-- The end-of-line block in replace mode on a newline: append the newline,
flush the line to the output stream, and continue. -/
theorem lineEnd_r_newline (p : List Char → Bool) (ns : List Char) (st : St) :
    lineEnd (rCfg p ns) st (some '\n')
      = ({ st with
           outStream := st.outStream ++ (st.line ++ ['\n']), marked := false,
           lineno := st.lineno + 1, line := [] }, false) := by
  simp [lineEnd, rCfg, plainCfg, finishLine]

/-- The end-of-line block in replace mode at end of input with an empty line
buffer: break without writing. -/
theorem lineEnd_r_eof_nil (p : List Char → Bool) (ns : List Char) (st : St)
    (hl : st.line = []) :
    lineEnd (rCfg p ns) st none = (st, true) := by
  simp [lineEnd, rCfg, plainCfg, hl]

/-- The end-of-line block in replace mode at end of input with a pending
line: flush it (without a newline) and break. -/
theorem lineEnd_r_eof_ne (p : List Char → Bool) (ns : List Char) (st : St)
    (hl : ¬ st.line = []) :
    lineEnd (rCfg p ns) st none
      = ({ st with
           outStream := st.outStream ++ st.line, marked := false,
           lineno := st.lineno + 1, line := [] }, true) := by
  simp [lineEnd, rCfg, plainCfg, finishLine, hl]

theorem runStep_newline (cfg : Cfg) (st : St) :
    runStep cfg st (some '\n')
      = lineEnd cfg (lexSwitch cfg st (some '\n')) (some '\n') := rfl

theorem runStep_char (cfg : Cfg) (st : St) (ch : Char) (h : ¬ ch = '\n') :
    runStep cfg st (some ch)
      = ({ lexSwitch cfg st (some ch) with
           line := (lexSwitch cfg st (some ch)).line ++ [ch] }, false) := by
  simp [runStep, h]

theorem runStep_eof (cfg : Cfg) (st : St) :
    runStep cfg st none = lineEnd cfg (lexSwitch cfg st none) none := rfl

theorem lexSwitch_token_some (cfg : Cfg) (st : St) (ch : Char)
    (hf : st.fstate = Fstate.token) (hal : ¬ isAlnumUnd ch = true) :
    lexSwitch cfg st (some ch) = tokenEnd cfg st (some ch) := by
  simp [lexSwitch, hf, hal]

theorem lexSwitch_token_none (cfg : Cfg) (st : St)
    (hf : st.fstate = Fstate.token) :
    lexSwitch cfg st none = tokenEnd cfg st none := by
  simp [lexSwitch, hf]

theorem valid_append_keep (p : List Char → Bool) (ps : List Piece) (c : Char)
    (h : ∀ q ∈ ps, validPiece p q) :
    ∀ q ∈ ps ++ [Piece.keep c], validPiece p q := by
  intro q hq
  rcases List.mem_append.mp hq with h1 | h1
  · exact h q h1
  · simp at h1; subst h1; trivial

theorem alnum_of_alpha (c : Char) (h : isAlphaCh c = true) :
    isAlnumUnd c = true := by
  simp [isAlnumUnd, h]

theorem wIdx_le_of_ident (st : St)
    (hI : isIdentB (st.line.drop st.wIdx) = true) :
    st.wIdx ≤ st.line.length := by
  by_contra hlt
  push_neg at hlt
  have hnil : st.line.drop st.wIdx = [] :=
    List.drop_eq_nil_iff.mpr (le_of_lt hlt)
  rw [hnil] at hI
  simp [isIdentB] at hI

theorem isIdentB_append_alnum (w : List Char) (d : Char)
    (hw : isIdentB w = true) (hd : isAlnumUnd d = true) :
    isIdentB (w ++ [d]) = true := by
  cases w with
  | nil => simp [isIdentB] at hw
  | cons c r =>
    simp [isIdentB, List.all_append] at hw ⊢
    exact ⟨hw.1, hw.2, hd⟩

/-- One non-`EOF` iteration of the replace-mode loop preserves the frame
invariant: the consumed input grows by the character read, and the
decomposition into verbatim bytes and rewritten tokens extends accordingly.
The iteration never breaks the loop. -/
theorem rstep (p : List Char → Bool) (ns : List Char) (consumed : List Char)
    (st : St) (ps : List Piece) (ch : Char)
    (h : RInv p ns consumed st ps) :
    (runStep (rCfg p ns) st (some ch)).2 = false ∧
    ∃ ps', RInv p ns (consumed ++ [ch])
      (runStep (rCfg p ns) st (some ch)).1 ps' := by
  obtain ⟨hval, hin, hout, hpst, htok⟩ := h
  by_cases hft : st.fstate = Fstate.token
  · by_cases hal : isAlnumUnd ch = true
    · -- the token grows by one character
      obtain ⟨hI, ps₀, hps₀⟩ := htok hft
      have hne : ¬ ch = '\n' := fun e => by
        subst e; simp [isAlnumUnd, isAlphaCh, isDigitCh] at hal
      rw [run_step_token (rCfg p ns) st ch hft hal]
      refine ⟨rfl, ps ++ [Piece.keep ch], valid_append_keep p ps ch hval,
        ?_, ?_, hpst, ?_⟩
      · rw [rendIn_append, ← hin]; simp [rendIn, pieceIn]
      · show st.outStream ++ (st.line ++ [ch]) = _
        rw [rendOut_append, ← List.append_assoc, hout]
        simp [rendOut, pieceOut]
      · intro hft'
        have hwle := wIdx_le_of_ident st hI
        have hdrop : (st.line ++ [ch]).drop st.wIdx
            = st.line.drop st.wIdx ++ [ch] :=
          List.drop_append_of_le_length hwle
        refine ⟨?_, ps₀, ?_⟩
        · show isIdentB ((st.line ++ [ch]).drop st.wIdx) = true
          rw [hdrop]
          exact isIdentB_append_alnum _ ch hI hal
        · show ps ++ [Piece.keep ch]
            = ps₀ ++ ((st.line ++ [ch]).drop st.wIdx).map Piece.keep
          rw [hdrop, hps₀]
          simp [List.map_append]
    · -- the token ends; the current character is reprocessed
      obtain ⟨hI, ps₀, hps₀⟩ := htok hft
      have hna : isAlphaCh ch = false := by
        rcases hx : isAlphaCh ch with _ | _
        · rfl
        · exact absurd (alnum_of_alpha ch hx) hal
      have hsub : ∀ q ∈ ps₀, validPiece p q := fun q hq =>
        hval q (hps₀ ▸ List.mem_append.mpr (Or.inl hq))
      have hsplit : st.line.take st.wIdx ++ st.line.drop st.wIdx = st.line :=
        List.take_append_drop st.wIdx st.line
      have hout₀ : st.outStream ++ st.line.take st.wIdx = rendOut ns ps₀ := by
        have h1 : (st.outStream ++ st.line.take st.wIdx)
            ++ st.line.drop st.wIdx
            = rendOut ns ps₀ ++ st.line.drop st.wIdx := by
          rw [List.append_assoc, hsplit, hout, hps₀, rendOut_append,
            rendOut_keeps]
        exact List.append_cancel_right h1
      have hin₀ : consumed = rendIn ps₀ ++ st.line.drop st.wIdx := by
        rw [hin, hps₀, rendIn_append, rendIn_keeps]
      by_cases hm : p (st.line.drop st.wIdx) = true
      · -- matched: the token bytes are replaced by the new text
        have hte := tokenEnd_r_match p ns st (some ch) hm
        set stM : St :=
          { st with
            marked := true, tested := st.tested ++ [st.line.drop st.wIdx],
            line := st.line.take st.wIdx ++ ns, changed := true,
            fstate := Fstate.start } with hstM
        have hsc := startCase_r p ns stM (some ch) rfl
        have hv₂ : ∀ q ∈ ps₀ ++ [Piece.subst (st.line.drop st.wIdx)],
            validPiece p q := by
          intro q hq
          rcases List.mem_append.mp hq with h1 | h1
          · exact hsub q h1
          · simp at h1; subst h1; exact ⟨hm, hI⟩
        have hout₂ : (startCase (rCfg p ns) stM (some ch)).outStream
            ++ (startCase (rCfg p ns) stM (some ch)).line
            = rendOut ns (ps₀ ++ [Piece.subst (st.line.drop st.wIdx)]) := by
          rw [hsc.1, hsc.2.1, rendOut_append]
          show st.outStream ++ (st.line.take st.wIdx ++ ns) = _
          rw [← List.append_assoc, hout₀]
          simp [rendOut, pieceOut]
        have hin₂ : consumed
            = rendIn (ps₀ ++ [Piece.subst (st.line.drop st.wIdx)]) := by
          rw [rendIn_append, hin₀]
          simp [rendIn, pieceIn]
        by_cases hnl : ch = '\n'
        · subst hnl
          rw [runStep_newline, lexSwitch_token_some (rCfg p ns) st '\n' hft
            hal, hte, lineEnd_r_newline]
          refine ⟨rfl,
            (ps₀ ++ [Piece.subst (st.line.drop st.wIdx)])
              ++ [Piece.keep '\n'],
            valid_append_keep p _ '\n' hv₂, ?_, ?_, ?_, ?_⟩
          · rw [rendIn_append, ← hin₂]; simp [rendIn, pieceIn]
          · simp only [List.append_nil]
            rw [rendOut_append, ← List.append_assoc, hout₂]
            simp [rendOut, pieceOut]
          · show ¬ (startCase (rCfg p ns) stM (some '\n')).pstate
                = Fstate.token
            exact fun hx => absurd (hsc.2.2.1 hx) hpst
          · intro hft'
            obtain ⟨-, ch', hch', ha⟩ := hsc.2.2.2 hft'
            cases hch'
            simp [isAlphaCh] at ha
        · rw [runStep_char _ _ _ hnl, lexSwitch_token_some (rCfg p ns) st ch
            hft hal, hte]
          refine ⟨rfl,
            (ps₀ ++ [Piece.subst (st.line.drop st.wIdx)]) ++ [Piece.keep ch],
            valid_append_keep p _ ch hv₂, ?_, ?_, ?_, ?_⟩
          · rw [rendIn_append, ← hin₂]; simp [rendIn, pieceIn]
          · rw [rendOut_append, ← List.append_assoc, hout₂]
            simp [rendOut, pieceOut]
          · show ¬ (startCase (rCfg p ns) stM (some ch)).pstate = Fstate.token
            exact fun hx => absurd (hsc.2.2.1 hx) hpst
          · intro hft'
            obtain ⟨-, ch', hch', ha⟩ := hsc.2.2.2 hft'
            cases hch'
            rw [hna] at ha
            cases ha
      · -- unmatched: the token bytes stay in place as verbatim pieces
        have hmf : p (st.line.drop st.wIdx) = false := by
          rcases hx : p (st.line.drop st.wIdx) with _ | _
          · rfl
          · exact absurd hx hm
        have hte := tokenEnd_r_nomatch p ns st (some ch) hmf
        set stM : St :=
          { st with
            marked := false, tested := st.tested ++ [st.line.drop st.wIdx],
            fstate := Fstate.start } with hstM
        have hsc := startCase_r p ns stM (some ch) rfl
        have hout₂ : (startCase (rCfg p ns) stM (some ch)).outStream
            ++ (startCase (rCfg p ns) stM (some ch)).line
            = rendOut ns ps := by
          rw [hsc.1, hsc.2.1]
          exact hout
        by_cases hnl : ch = '\n'
        · subst hnl
          rw [runStep_newline, lexSwitch_token_some (rCfg p ns) st '\n' hft
            hal, hte, lineEnd_r_newline]
          refine ⟨rfl, ps ++ [Piece.keep '\n'],
            valid_append_keep p ps '\n' hval, ?_, ?_, ?_, ?_⟩
          · rw [rendIn_append, ← hin]; simp [rendIn, pieceIn]
          · simp only [List.append_nil]
            rw [rendOut_append, ← List.append_assoc, hout₂]
            simp [rendOut, pieceOut]
          · show ¬ (startCase (rCfg p ns) stM (some '\n')).pstate
                = Fstate.token
            exact fun hx => absurd (hsc.2.2.1 hx) hpst
          · intro hft'
            obtain ⟨-, ch', hch', ha⟩ := hsc.2.2.2 hft'
            cases hch'
            simp [isAlphaCh] at ha
        · rw [runStep_char _ _ _ hnl, lexSwitch_token_some (rCfg p ns) st ch
            hft hal, hte]
          refine ⟨rfl, ps ++ [Piece.keep ch],
            valid_append_keep p ps ch hval, ?_, ?_, ?_, ?_⟩
          · rw [rendIn_append, ← hin]; simp [rendIn, pieceIn]
          · rw [rendOut_append, ← List.append_assoc, hout₂]
            simp [rendOut, pieceOut]
          · show ¬ (startCase (rCfg p ns) stM (some ch)).pstate = Fstate.token
            exact fun hx => absurd (hsc.2.2.1 hx) hpst
          · intro hft'
            obtain ⟨-, ch', hch', ha⟩ := hsc.2.2.2 hft'
            cases hch'
            rw [hna] at ha
            cases ha
  · -- not inside a token: the character is buffered (or flushes the line)
    have hs := lexSwitch_r_nontoken p ns st (some ch) hft hpst
    have hout₂ : (lexSwitch (rCfg p ns) st (some ch)).outStream
        ++ (lexSwitch (rCfg p ns) st (some ch)).line = rendOut ns ps := by
      rw [hs.1, hs.2.1]
      exact hout
    by_cases hnl : ch = '\n'
    · subst hnl
      rw [runStep_newline, lineEnd_r_newline]
      refine ⟨rfl, ps ++ [Piece.keep '\n'],
        valid_append_keep p ps '\n' hval, ?_, ?_, ?_, ?_⟩
      · rw [rendIn_append, ← hin]; simp [rendIn, pieceIn]
      · simp only [List.append_nil]
        rw [rendOut_append, ← List.append_assoc, hout₂]
        simp [rendOut, pieceOut]
      · exact hs.2.2.1
      · intro hft'
        obtain ⟨-, ch', hch', ha⟩ := hs.2.2.2 hft'
        cases hch'
        simp [isAlphaCh] at ha
    · rw [runStep_char _ _ _ hnl]
      refine ⟨rfl, ps ++ [Piece.keep ch],
        valid_append_keep p ps ch hval, ?_, ?_, ?_, ?_⟩
      · rw [rendIn_append, ← hin]; simp [rendIn, pieceIn]
      · rw [rendOut_append, ← List.append_assoc, hout₂]
        simp [rendOut, pieceOut]
      · exact hs.2.2.1
      · intro hft'
        obtain ⟨hwi, ch', hch', ha⟩ := hs.2.2.2 hft'
        cases hch'
        refine ⟨?_, ps, ?_⟩
        · show isIdentB
              (((lexSwitch (rCfg p ns) st (some ch)).line ++ [ch]).drop
                (lexSwitch (rCfg p ns) st (some ch)).wIdx) = true
          rw [hwi, hs.1, List.drop_left]
          simp [isIdentB, ha]
        · show ps ++ [Piece.keep ch]
            = ps ++ (((lexSwitch (rCfg p ns) st (some ch)).line ++ [ch]).drop
                (lexSwitch (rCfg p ns) st (some ch)).wIdx).map Piece.keep
          rw [hwi, hs.1, List.drop_left]
          rfl

/-- The final `EOF` iteration of the replace-mode loop: the pending token (if
any) is completed and possibly rewritten, the pending line is flushed, and
the whole output stream is the output rendering of a decomposition of the
whole consumed input. -/
theorem reof (p : List Char → Bool) (ns : List Char) (consumed : List Char)
    (st : St) (ps : List Piece) (h : RInv p ns consumed st ps) :
    ∃ ps', (∀ q ∈ ps', validPiece p q) ∧ consumed = rendIn ps' ∧
      ((runStep (rCfg p ns) st none).1).outStream = rendOut ns ps' := by
  obtain ⟨hval, hin, hout, hpst, htok⟩ := h
  by_cases hft : st.fstate = Fstate.token
  · obtain ⟨hI, ps₀, hps₀⟩ := htok hft
    have hsub : ∀ q ∈ ps₀, validPiece p q := fun q hq =>
      hval q (hps₀ ▸ List.mem_append.mpr (Or.inl hq))
    have hsplit : st.line.take st.wIdx ++ st.line.drop st.wIdx = st.line :=
      List.take_append_drop st.wIdx st.line
    have hout₀ : st.outStream ++ st.line.take st.wIdx = rendOut ns ps₀ := by
      have h1 : (st.outStream ++ st.line.take st.wIdx)
          ++ st.line.drop st.wIdx
          = rendOut ns ps₀ ++ st.line.drop st.wIdx := by
        rw [List.append_assoc, hsplit, hout, hps₀, rendOut_append,
          rendOut_keeps]
      exact List.append_cancel_right h1
    have hin₀ : consumed = rendIn ps₀ ++ st.line.drop st.wIdx := by
      rw [hin, hps₀, rendIn_append, rendIn_keeps]
    by_cases hm : p (st.line.drop st.wIdx) = true
    · have hte := tokenEnd_r_match p ns st none hm
      set stM : St :=
        { st with
          marked := true, tested := st.tested ++ [st.line.drop st.wIdx],
          line := st.line.take st.wIdx ++ ns, changed := true,
          fstate := Fstate.start } with hstM
      have hsc := startCase_r p ns stM none rfl
      have hv₂ : ∀ q ∈ ps₀ ++ [Piece.subst (st.line.drop st.wIdx)],
          validPiece p q := by
        intro q hq
        rcases List.mem_append.mp hq with h1 | h1
        · exact hsub q h1
        · simp at h1; subst h1; exact ⟨hm, hI⟩
      have hout₂ : (startCase (rCfg p ns) stM none).outStream
          ++ (startCase (rCfg p ns) stM none).line
          = rendOut ns (ps₀ ++ [Piece.subst (st.line.drop st.wIdx)]) := by
        rw [hsc.1, hsc.2.1, rendOut_append]
        show st.outStream ++ (st.line.take st.wIdx ++ ns) = _
        rw [← List.append_assoc, hout₀]
        simp [rendOut, pieceOut]
      have hin₂ : consumed
          = rendIn (ps₀ ++ [Piece.subst (st.line.drop st.wIdx)]) := by
        rw [rendIn_append, hin₀]
        simp [rendIn, pieceIn]
      rw [runStep_eof, lexSwitch_token_none (rCfg p ns) st hft, hte]
      by_cases hl : (startCase (rCfg p ns) stM none).line = []
      · rw [lineEnd_r_eof_nil p ns _ hl]
        refine ⟨ps₀ ++ [Piece.subst (st.line.drop st.wIdx)], hv₂, hin₂, ?_⟩
        rw [← hout₂, hl]
        simp
      · rw [lineEnd_r_eof_ne p ns _ hl]
        exact ⟨ps₀ ++ [Piece.subst (st.line.drop st.wIdx)], hv₂, hin₂, hout₂⟩
    · have hmf : p (st.line.drop st.wIdx) = false := by
        rcases hx : p (st.line.drop st.wIdx) with _ | _
        · rfl
        · exact absurd hx hm
      have hte := tokenEnd_r_nomatch p ns st none hmf
      set stM : St :=
        { st with
          marked := false, tested := st.tested ++ [st.line.drop st.wIdx],
          fstate := Fstate.start } with hstM
      have hsc := startCase_r p ns stM none rfl
      have hout₂ : (startCase (rCfg p ns) stM none).outStream
          ++ (startCase (rCfg p ns) stM none).line = rendOut ns ps := by
        rw [hsc.1, hsc.2.1]
        exact hout
      rw [runStep_eof, lexSwitch_token_none (rCfg p ns) st hft, hte]
      by_cases hl : (startCase (rCfg p ns) stM none).line = []
      · rw [lineEnd_r_eof_nil p ns _ hl]
        refine ⟨ps, hval, hin, ?_⟩
        rw [← hout₂, hl]
        simp
      · rw [lineEnd_r_eof_ne p ns _ hl]
        exact ⟨ps, hval, hin, hout₂⟩
  · have hs := lexSwitch_r_nontoken p ns st none hft hpst
    have hout₂ : (lexSwitch (rCfg p ns) st none).outStream
        ++ (lexSwitch (rCfg p ns) st none).line = rendOut ns ps := by
      rw [hs.1, hs.2.1]
      exact hout
    rw [runStep_eof]
    by_cases hl : (lexSwitch (rCfg p ns) st none).line = []
    · rw [lineEnd_r_eof_nil p ns _ hl]
      refine ⟨ps, hval, hin, ?_⟩
      rw [← hout₂, hl]
      simp
    · rw [lineEnd_r_eof_ne p ns _ hl]
      exact ⟨ps, hval, hin, hout₂⟩

/-- The replace-mode loop, run to completion from any state satisfying the
frame invariant, produces the output rendering of a decomposition of the
whole input consumed so far plus the remaining input. -/
theorem rgo (p : List Char → Bool) (ns : List Char) :
    ∀ (cs consumed : List Char) (st : St) (ps : List Piece),
      RInv p ns consumed st ps →
      ∃ ps', (∀ q ∈ ps', validPiece p q) ∧ consumed ++ cs = rendIn ps' ∧
        (lexGo (rCfg p ns) st cs).outStream = rendOut ns ps' := by
  intro cs
  induction cs with
  | nil =>
    intro consumed st ps h
    obtain ⟨ps', hv, hin, hout⟩ := reof p ns consumed st ps h
    exact ⟨ps', hv, by simpa using hin, hout⟩
  | cons ch cs ih =>
    intro consumed st ps h
    obtain ⟨hbrk, ps₁, h₁⟩ := rstep p ns consumed st ps ch h
    rw [lexGo_cons_nobreak _ _ _ _ hbrk]
    obtain ⟨ps', hv, hin, hout⟩ := ih (consumed ++ [ch]) _ ps₁ h₁
    exact ⟨ps', hv, by simpa [List.append_assoc] using hin, hout⟩

/-- Claim C5: in replace mode, for every pattern predicate, replacement text
and input, the input decomposes into pieces — single verbatim bytes and
complete matched identifier tokens — such that the output stream is exactly
the input with each matched token replaced by the replacement text and every
other byte (punctuation, whitespace, newlines) reproduced in place.  In
particular an input with no matching tokens is reproduced byte for byte: with
a never-matching pattern every piece is a verbatim byte, so the output equals
the input. -/
theorem claim5_replace_frame (p : List Char → Bool) (ns input : List Char) :
    ∃ ps : List Piece, (∀ q ∈ ps, validPiece p q) ∧
      input = rendIn ps ∧
      (lex (rCfg p ns) input).outStream = rendOut ns ps := by
  have hinit : RInv p ns [] (lexInit (rCfg p ns)) [] := by
    refine ⟨by simp, rfl, rfl, ?_, ?_⟩
    · intro hx
      exact absurd hx (by simp [lexInit, gota, rCfg, plainCfg, initSt])
    · intro hx
      exact absurd hx (by simp [lexInit, gota, rCfg, plainCfg, initSt])
  obtain ⟨ps, hv, hin, hout⟩ :=
    rgo p ns input [] (lexInit (rCfg p ns)) [] hinit
  exact ⟨ps, hv, by simpa using hin, hout⟩

end Cgrep
